import Mathlib

/-!
Verification of the resumable batch-processing core of the
deal-extraction-and-packaging pipeline: the bounded semantic partitioner
(package_creation/clustering.py), the checkpoint stores
(enrichment/checkpoint.py, package_creation/checkpoint.py), the incremental
multi-sink exporter (enrichment/incremental_exporter.py) and the two batch
loops (enrichment/enricher.py, package_creation/creator.py).

External collaborators (the sklearn mixture models, the LLM transform, the
filesystem and the remote spreadsheet API) are modelled as explicit
parameters: the mixture model's output appears as an abstract label
assignment or membership-probability matrix, external calls as oracles, and
each sink write carries a failure flag standing for a raised-and-caught
exception.  Machine floats of the source are modelled as rationals; the
claims under study depend only on exact comparisons.
-/

namespace DealPipeline

namespace Clustering

/-- Contiguous chunking of a list into pieces of at most the given size,
mirroring the Python loop running over range(0, len, size).  The first
argument is fuel, always instantiated with the length of the list. -/
def chunksAux (size : ℕ) : ℕ → List α → List (List α)
  | 0, _ => []
  | _ + 1, [] => []
  | fuel + 1, l => l.take size :: chunksAux size fuel (l.drop size)

/-- Cuts a list into contiguous chunks of at most the given size. -/
def chunks (size : ℕ) (l : List α) : List (List α) :=
  chunksAux size l.length l

/-- Stable insertion of an element into a list sorted by descending key:
the element goes after every earlier element whose key is at least as
large, matching the stability of Python's sorted with reverse=True. -/
def insertDesc (key : α → ℚ) (x : α) : List α → List α
  | [] => [x]
  | y :: ys => if key x ≤ key y then y :: insertDesc key x ys else x :: y :: ys

/-- Stable sort by descending key (model of sorted(l, key=key, reverse=True)). -/
def sortDesc (key : α → ℚ) (l : List α) : List α :=
  l.foldl (fun acc x => insertDesc key x acc) []

/-- Inserts index i under label lab into an association list of groups,
keeping first-occurrence order of labels (Python dict insertion order) and
index order inside each group. -/
def insertIntoGroups : List (ℕ × List ℕ) → ℕ → ℕ → List (ℕ × List ℕ)
  | [], lab, i => [(lab, [i])]
  | (l, xs) :: rest, lab, i =>
    if l = lab then (l, xs ++ [i]) :: rest else (l, xs) :: insertIntoGroups rest lab i

/-- Groups the indices 0..n-1 by their cluster label, as the dict-building
loop of cluster_deals_semantically does (lines 81-85 of clustering.py). -/
def groupByLabel (labels : ℕ → ℕ) (n : ℕ) : List (List ℕ) :=
  ((List.range n).foldl (fun acc i => insertIntoGroups acc (labels i) i) []).map Prod.snd

/-- Target component count of both partitioner modes (clustering.py lines
58-59 and 175-176): n_clusters = max(3, n // max_size) capped by
n // min_size. -/
def computeNClusters (n maxSize minSize : ℕ) : ℕ :=
  min (max 3 (n / maxSize)) (n / minSize)

/-- BIC-based component selection (select_optimal_components of
clustering.py).  The external GMM fit-and-score is the oracle bic: it
returns none when fitting raises (the except branch skips that candidate)
and the BIC score otherwise.  The fold carries (best_bic, best_n) with
none standing for the initial np.inf. -/
def selectOptimalComponents (bic : ℕ → Option ℚ) (nSamples maxComponents minComponents : ℕ) : ℕ :=
  let maxC := min maxComponents (nSamples / 2)
  let candidates := List.range' minComponents (maxC + 1 - minComponents)
  (candidates.foldl
    (fun st n =>
      match bic n with
      | none => st
      | some b =>
        match st.1 with
        | none => (some b, n)
        | some bb => if b < bb then (some b, n) else st)
    ((none : Option ℚ), minComponents)).2

/-- Clustering method selector of cluster_deals_semantically. -/
inductive Method
  | kmeans
  | gmm
deriving DecidableEq, Repr

/-- Number of components the fitted model of cluster_deals_semantically
receives: in kmeans mode the capped n_clusters itself; in gmm mode the
explicit n_components argument when given, else the BIC auto-selection with
max_components = n_clusters and min_components = 3. -/
def semanticComponentCount (bic : ℕ → Option ℚ) (n maxSize minSize : ℕ)
    (method : Method) (nComponents : Option ℕ) : ℕ :=
  let nClusters := computeNClusters n maxSize minSize
  match method with
  | .kmeans => nClusters
  | .gmm =>
    match nComponents with
    | some k => k
    | none => selectOptimalComponents bic n nClusters 3

/-- Hard-mode partitioner cluster_deals_semantically, with the fitted
model's per-index label assignment passed as the abstract labels function
(the output of fit_predict).  Groups indices by label, splits clusters
above max_size into contiguous chunks, then discards clusters below
min_size. -/
def cluster_deals_semantically (labels : ℕ → ℕ) (n maxSize minSize : ℕ) : List (List ℕ) :=
  if n < minSize then []
  else
    let grouped := groupByLabel labels n
    let final := (grouped.map
      (fun c => if c.length ≤ maxSize then [c] else chunks maxSize c)).flatten
    final.filter (fun c => minSize ≤ c.length)

/-- Soft-mode partitioner cluster_deals_with_soft_assignments, with the
fitted mixture's membership probabilities passed as the abstract probs
matrix (probs i comp is predict_proba row i, column comp).  Per component:
take the indices at or above the threshold; drop the component if fewer
than min_size qualify; otherwise emit the list whole when within max_size,
else sort by descending probability and cut into contiguous chunks -
without re-filtering the chunks against min_size. -/
def cluster_deals_with_soft_assignments (probs : ℕ → ℕ → ℚ) (n maxSize minSize : ℕ)
    (threshold : ℚ) : List (List ℕ) :=
  if n < minSize then []
  else
    let k := computeNClusters n maxSize minSize
    ((List.range k).map (fun comp =>
      let dealIndices := (List.range n).filter (fun i => threshold ≤ probs i comp)
      if minSize ≤ dealIndices.length then
        if dealIndices.length ≤ maxSize then [dealIndices]
        else chunks maxSize (sortDesc (fun i => probs i comp) dealIndices)
      else [])).flatten

end Clustering

namespace Checkpoint

/-- Unit handed to get_unprocessed_deals: either an object carrying
attributes (the hasattr/getattr path; an attribute that is absent, or one
Python would hold as None, is a missing lookup) or a plain dict (the
dict.get path). -/
inductive PyDeal
  | obj (attrs : List (String × String))
  | dict (entries : List (String × String))
deriving DecidableEq, Repr

/-- Key extraction of get_unprocessed_deals (checkpoint.py lines 117-123):
attribute lookup for objects, dict.get for dicts; an object without the
attribute falls through the hasattr branch and the getattr default to
None. -/
def extractDealId : PyDeal → Option String
  | .obj attrs => attrs.lookup "deal_id"
  | .dict entries => entries.lookup "deal_id"

/-- Python truthiness of the extracted deal_id: None and the empty string
are falsy. -/
def truthyId : Option String → Bool
  | none => false
  | some s => !(s == "")

/-- Loop body of get_unprocessed_deals: append the unit when its key is
truthy and not yet processed, and also (with a warning) when no truthy key
could be extracted; otherwise skip it. -/
def keepStep (processed : List String) (unprocessed : List PyDeal) (deal : PyDeal) :
    List PyDeal :=
  let dealId := extractDealId deal
  if truthyId dealId && !(processed.contains (dealId.getD "")) then unprocessed ++ [deal]
  else if !(truthyId dealId) then unprocessed ++ [deal]
  else unprocessed

/-- Model of EnrichmentCheckpoint.get_unprocessed_deals (lines 114-131):
the accumulating loop over the input in order. -/
def get_unprocessed_deals (processed : List String) (deals : List PyDeal) : List PyDeal :=
  deals.foldl (keepStep processed) []

/-- Modelled from the claim's words (the refinement target of C10): a unit
from which no non-empty key can be extracted is always kept; a unit with a
non-empty key is kept exactly when the key is not in the processed set. -/
def keptPerClaim (processed : List String) (deal : PyDeal) : Bool :=
  match extractDealId deal with
  | none => true
  | some k => if k = "" then true else !(processed.contains k)

/-- Parsed content of a checkpoint backing file: the processed-key list
plus the optional source-file and timestamp fields. -/
structure CheckpointData (κ : Type) where
  processedKeys : List κ
  sourceFile : Option String
  lastUpdated : Option String
deriving DecidableEq, Repr

/-- Backing file as seen by load: absent, or present with the outcome of
opening and JSON-parsing it (error covers an unreadable file, malformed
JSON and a non-dict document alike). -/
inductive BackingFile (κ : Type)
  | absent
  | present (parsed : Except Unit (CheckpointData κ))

/-- In-memory checkpoint state after construction. -/
structure CheckpointState (κ : Type) where
  processedKeys : List κ
  sourceFile : Option String
  lastUpdated : Option String
deriving DecidableEq, Repr

/-- Body of the try block of load: reading an absent file is skipped
(state stays at the constructor's empty defaults), a parsed file populates
the three fields, and a corrupt or unreadable file raises.  Generic over
the key type: the enrichment store uses string deal ids, the
package-creation store integer cluster indices, with identical logic. -/
def loadRaw : BackingFile κ → Except Unit (CheckpointState κ)
  | .absent => .ok ⟨[], none, none⟩
  | .present (.ok d) => .ok ⟨d.processedKeys, d.sourceFile, d.lastUpdated⟩
  | .present (.error e) => .error e

/-- Checkpoint load with its except branch (checkpoint.py lines 40-54): a
raised exception is caught and logged, and the processed set degrades to
empty - construction never propagates the failure. -/
def load : BackingFile κ → CheckpointState κ := fun f =>
  match loadRaw f with
  | .ok s => s
  | .error _ => ⟨[], none, none⟩

/-- Membership test is_processed over the in-memory set. -/
def is_processed [BEq κ] (st : CheckpointState κ) (k : κ) : Bool :=
  st.processedKeys.contains k

end Checkpoint

namespace Exporter

/-- Export Record already serialized flat: ordered key/value pairs, the
shape pandas receives after flatten_dict on the claims' inputs. -/
abbrev Record := List (String × String)

/-- Reinstatement of raw_deal_data performed by both _append_tsv and
_append_to_sheets: flatten_dict keeps the key (as a serialized string)
when present, and the caller appends a serialized default when absent. -/
def withRawDealData (r : Record) : Record :=
  if (r.map Prod.fst).contains "raw_deal_data" then r
  else r ++ [("raw_deal_data", "\x7b\x7d")]

/-- Spreadsheet-sink bookkeeping of IncrementalExporter: the deal_id to
row-number index built at initialization, the next free row cursor, and
the remote rows themselves, modelled as row-number to deal_id-cell pairs
(the other cells play no part in the claims under study). -/
structure SheetsState where
  dealIdToRow : List (String × ℕ)
  nextRow : ℕ
  rows : List (ℕ × Option String)
deriving DecidableEq, Repr

/-- Writes the deal_id cell of one worksheet row: overwrites the row when
it exists, appends it otherwise (worksheet.update on a one-row range). -/
def setRow (rows : List (ℕ × Option String)) (r : ℕ) (d : Option String) :
    List (ℕ × Option String) :=
  if rows.any (fun p => p.1 == r) then rows.map (fun p => if p.1 == r then (r, d) else p)
  else rows ++ [(r, d)]

/-- Row-placement logic of _append_to_sheets (incremental_exporter.py
lines 316-335), guarded by the surrounding try: a raised-and-caught sink
failure (fail = true) leaves the state untouched.  The lookup runs only
when the deal_id is truthy and the index dict is non-empty; a hit
overwrites that row in place, a miss writes at the next free row and
advances the cursor.  Neither branch extends the index.  The header
reconciliation and cell-value conversion of the source affect only cell
contents and column width, not row placement, and are not modelled. -/
def appendToSheets (fail : Bool) (st : SheetsState) (dealId : Option String) : SheetsState :=
  if fail then st
  else
    let target : Option ℕ :=
      match dealId with
      | none => none
      | some d => if !(d == "") && !st.dealIdToRow.isEmpty then st.dealIdToRow.lookup d else none
    match target with
    | some r => { st with rows := setRow st.rows r dealId }
    | none => { st with rows := setRow st.rows st.nextRow dealId, nextRow := st.nextRow + 1 }

/-- State of the incremental exporter across its three sinks. -/
structure ExporterState where
  jsonlLines : List Record
  tsvHeaderWritten : Bool
  tsvColumns : Option (List String)
  tsvRows : List (List (Option String))
  worksheet : Bool
  sheets : SheetsState
deriving DecidableEq, Repr

/-- One failure flag per sink write: true stands for the write raising,
which each sink helper catches and logs. -/
structure SinkFailures where
  jsonl : Bool
  tsv : Bool
  sheets : Bool
deriving DecidableEq, Repr

/-- The three sinks, used to record which writes a call attempted. -/
inductive Sink
  | jsonl
  | tsv
  | sheets
deriving DecidableEq, Repr

/-- Append-log write _append_jsonl with its try/except: on failure the
line is lost and the error logged, otherwise one line is appended. -/
def appendJsonl (fail : Bool) (st : ExporterState) (r : Record) : ExporterState :=
  if fail then st else { st with jsonlLines := st.jsonlLines ++ [r] }

/-- Tabular write _append_tsv (lines 188-213) with its try/except.  First
write: header and row written from the record itself, fixing tsv_columns.
Later writes: when tsv_columns is truthy (a non-empty list) the row is
reindexed to it - absent fields become empty cells, extra fields are
dropped; a falsy column memo falls back to the record's own layout. -/
def appendTsv (fail : Bool) (st : ExporterState) (r : Record) : ExporterState :=
  if fail then st
  else
    let flattened := withRawDealData r
    if !st.tsvHeaderWritten then
      { st with
        tsvHeaderWritten := true
        tsvColumns := some (flattened.map Prod.fst)
        tsvRows := st.tsvRows ++ [flattened.map (fun kv => some kv.2)] }
    else
      match st.tsvColumns with
      | some cols =>
        if !cols.isEmpty then
          { st with tsvRows := st.tsvRows ++ [cols.map (fun c => flattened.lookup c)] }
        else { st with tsvRows := st.tsvRows ++ [flattened.map (fun kv => some kv.2)] }
      | none => { st with tsvRows := st.tsvRows ++ [flattened.map (fun kv => some kv.2)] }

/-- One export_deal call (lines 160-177): the append-log write, then the
tabular write, then - only when a worksheet is connected - the spreadsheet
write keyed by the record's deal_id field.  Returns the new state and the
list of sink writes attempted.  Each helper swallows its own failure, so
the call as a whole is a total function: no failure pattern raises. -/
def export_deal (f : SinkFailures) (st : ExporterState) (r : Record) :
    ExporterState × List Sink :=
  let s1 := appendJsonl f.jsonl st r
  let s2 := appendTsv f.tsv s1 r
  if s2.worksheet then
    ({ s2 with sheets := appendToSheets f.sheets s2.sheets (r.lookup "deal_id") },
      [Sink.jsonl, Sink.tsv, Sink.sheets])
  else (s2, [Sink.jsonl, Sink.tsv])

/-- Spreadsheet state after _init_google_sheets creates a fresh Unified
worksheet: empty index, cursor at row 2, no data rows. -/
def freshSheets : SheetsState := ⟨[], 2, []⟩

/-- Exporter state at the start of a fresh (non-resume) run. -/
def freshExporter (hasWorksheet : Bool) : ExporterState :=
  ⟨[], false, none, [], hasWorksheet, freshSheets⟩

/-- All sink writes succeeding. -/
def noFail : SinkFailures := ⟨false, false, false⟩

/-- Number of worksheet rows whose deal_id cell holds the given key. -/
def rowsWithKey (st : SheetsState) (d : String) : ℕ :=
  (st.rows.filter (fun p => p.2 == some d)).length

end Exporter

namespace Batch

open Checkpoint

/-- Observable steps of one stage-1 enrich_batch run: the external
transform invocation, the checkpoint mark of a key, the hand-off of the
enriched record to the incremental exporter, and a checkpoint save. -/
inductive EnrichEv
  | process (k : String)
  | mark (k : String)
  | exported (k : String)
  | save
deriving DecidableEq, Repr

/-- Per-deal loop of DealEnricher.enrich_batch (enricher.py lines
108-137).  succ tells whether enrich_deal returns or raises for a deal.
On success in incremental mode the key is marked first, the checkpoint
saved every tenth deal, and only then is the record handed to the
exporter.  On failure the loop continues or aborts per continue_on_error.
hasCp and hasExp are respectively incremental-with-checkpoint-file and
incremental-with-exporter, matching the construction guards. -/
def enrichLoop (succ : PyDeal → Bool) (hasCp hasExp cont : Bool) :
    ℕ → List PyDeal → List EnrichEv
  | _, [] => []
  | idx, d :: ds =>
    let k := (extractDealId d).getD ""
    if succ d then
      (EnrichEv.process k ::
          ((if hasCp then EnrichEv.mark k :: (if idx % 10 == 0 then [EnrichEv.save] else [])
            else [])
          ++ (if hasExp then [EnrichEv.exported k] else [])))
        ++ enrichLoop succ hasCp hasExp cont (idx + 1) ds
    else
      EnrichEv.process k :: (if cont then enrichLoop succ hasCp hasExp cont (idx + 1) ds else [])

/-- Event trace of one enrich_batch call (enricher.py lines 84-148): in
incremental mode with a checkpoint file the input is first filtered
through get_unprocessed_deals, the loop runs over the remainder with
one-based indices, and a final unconditional checkpoint save closes the
run. -/
def enrich_batch_events (succ : PyDeal → Bool) (cont incremental : Bool)
    (checkpoint : Option (List String)) (hasExporter : Bool) (deals : List PyDeal) :
    List EnrichEv :=
  let deals' :=
    match incremental, checkpoint with
    | true, some processed => get_unprocessed_deals processed deals
    | _, _ => deals
  let hasCp := incremental && checkpoint.isSome
  enrichLoop succ hasCp (incremental && hasExporter) cont 1 deals'
    ++ (if hasCp then [EnrichEv.save] else [])

/-- Observable steps of one stage-2 create_packages run, keyed by the
one-based cluster index: the LLM proposal call, the export of one proposed
package, the checkpoint mark, and a checkpoint save. -/
inductive CreateEv
  | process (c : ℕ)
  | exported (c : ℕ)
  | mark (c : ℕ)
  | save
deriving DecidableEq, Repr

/-- Cluster index an event belongs to (none for checkpoint saves). -/
def clusterOf : CreateEv → Option ℕ
  | .process c => some c
  | .exported c => some c
  | .mark c => some c
  | .save => none

/-- Per-cluster loop of PackageCreator.create_packages (creator.py lines
155-184).  npkgs c is how many package proposals the LLM call for cluster
c yields; propose_packages_for_cluster catches its own failures and
returns an empty list, so the loop itself never aborts.  Exports of the
cluster's packages happen before the cluster is marked; every fifth
cluster index also saves the checkpoint. -/
def creatorLoop (npkgs : ℕ → ℕ) (hasCp hasExp : Bool) : List ℕ → List CreateEv
  | [] => []
  | c :: cs =>
    (CreateEv.process c ::
        ((if hasExp then List.replicate (npkgs c) (CreateEv.exported c) else [])
        ++ (if hasCp then CreateEv.mark c :: (if c % 5 == 0 then [CreateEv.save] else [])
            else [])))
      ++ creatorLoop npkgs hasCp hasExp cs

/-- PackageCreationCheckpoint.get_unprocessed_clusters: one-based cluster
indices not yet in the processed set, in input order. -/
def get_unprocessed_clusters (processed : List ℕ) (nClusters : ℕ) : List ℕ :=
  (List.range' 1 nClusters).filter (fun i => !(processed.contains i))

/-- Event trace of one create_packages call over nClusters clusters
(creator.py lines 147-188): with a checkpoint the loop covers the
unprocessed indices and a final save closes the run; without one it covers
every index 1..nClusters. -/
def create_packages_events (npkgs : ℕ → ℕ) (checkpoint : Option (List ℕ)) (hasExp : Bool)
    (nClusters : ℕ) : List CreateEv :=
  let idxs :=
    match checkpoint with
    | some processed => get_unprocessed_clusters processed nClusters
    | none => List.range' 1 nClusters
  creatorLoop npkgs checkpoint.isSome hasExp idxs
    ++ (if checkpoint.isSome then [CreateEv.save] else [])

end Batch

namespace Clustering

theorem length_le_of_mem_chunksAux {size : ℕ} :
    ∀ {fuel : ℕ} {l c : List α}, c ∈ chunksAux size fuel l → c.length ≤ size := by
  intro fuel
  induction fuel with
  | zero => intro l c h; simp [chunksAux] at h
  | succ n ih =>
    intro l c h
    cases l with
    | nil => simp [chunksAux] at h
    | cons x xs =>
      simp only [chunksAux, List.mem_cons] at h
      rcases h with h | h
      · subst h
        rw [List.length_take]
        exact min_le_left _ _
      · exact ih h

theorem length_le_of_mem_chunks {size : ℕ} {l c : List α} (h : c ∈ chunks size l) :
    c.length ≤ size :=
  length_le_of_mem_chunksAux h

theorem flatten_chunksAux {size : ℕ} (hs : 0 < size) :
    ∀ {fuel : ℕ} {l : List α}, l.length ≤ fuel → (chunksAux size fuel l).flatten = l := by
  intro fuel
  induction fuel with
  | zero =>
    intro l h
    have : l = [] := List.length_eq_zero.mp (Nat.le_zero.mp h)
    subst this
    simp [chunksAux]
  | succ n ih =>
    intro l h
    cases l with
    | nil => simp [chunksAux]
    | cons x xs =>
      simp only [chunksAux, List.flatten_cons]
      rw [ih ?_]
      · exact List.take_append_drop _ _
      · rw [List.length_drop]
        simp only [List.length_cons] at h ⊢
        omega

theorem flatten_chunks {size : ℕ} (hs : 0 < size) (l : List α) :
    (chunks size l).flatten = l :=
  flatten_chunksAux hs le_rfl

theorem mem_insertDesc {key : α → ℚ} {x a : α} :
    ∀ {l : List α}, a ∈ insertDesc key x l ↔ a = x ∨ a ∈ l := by
  intro l
  induction l with
  | nil => simp [insertDesc]
  | cons y ys ih =>
    simp only [insertDesc]
    split
    · simp only [List.mem_cons, ih]
      tauto
    · simp only [List.mem_cons]

theorem mem_sortDesc_foldl {key : α → ℚ} {a : α} :
    ∀ (l acc : List α),
      (a ∈ l.foldl (fun acc x => insertDesc key x acc) acc) ↔ a ∈ l ∨ a ∈ acc := by
  intro l
  induction l with
  | nil => simp
  | cons x xs ih =>
    intro acc
    simp only [List.foldl_cons, List.mem_cons]
    rw [ih]
    simp only [mem_insertDesc]
    tauto

theorem mem_sortDesc {key : α → ℚ} {a : α} {l : List α} : a ∈ sortDesc key l ↔ a ∈ l := by
  unfold sortDesc
  rw [mem_sortDesc_foldl]
  simp

theorem one_le_sum_map_range (g : ℕ → ℕ) {c k : ℕ} (hck : c < k) (hg : 1 ≤ g c) :
    1 ≤ ((List.range k).map g).sum := by
  induction k with
  | zero => omega
  | succ m ih =>
    rw [List.range_succ, List.map_append, List.sum_append]
    simp only [List.map_cons, List.map_nil, List.sum_cons, List.sum_nil]
    rcases Nat.lt_succ_iff_lt_or_eq.mp hck with h | h
    · have := ih h
      omega
    · subst h
      omega

theorem two_le_sum_map_range (g : ℕ → ℕ) {c1 c2 k : ℕ} (h12 : c1 < c2) (h2k : c2 < k)
    (g1 : 1 ≤ g c1) (g2 : 1 ≤ g c2) : 2 ≤ ((List.range k).map g).sum := by
  induction k with
  | zero => omega
  | succ m ih =>
    rw [List.range_succ, List.map_append, List.sum_append]
    simp only [List.map_cons, List.map_nil, List.sum_cons, List.sum_nil]
    rcases Nat.lt_succ_iff_lt_or_eq.mp h2k with h | h
    · have := ih h
      omega
    · subst h
      have := one_le_sum_map_range g h12 g1
      omega

/-- One soft-mode component whose thresholded index list reaches min_size
and contains i contributes at least one output cluster containing i. -/
theorem soft_component_contributes (probs : ℕ → ℕ → ℚ) (n maxSize minSize : ℕ) (θ : ℚ)
    (i comp : ℕ) (hmax : 0 < maxSize) (hin : i < n) (hp : θ ≤ probs i comp)
    (hs : minSize ≤ ((List.range n).filter (fun j => decide (θ ≤ probs j comp))).length) :
    1 ≤ ((fun comp =>
        let dealIndices := (List.range n).filter (fun j => decide (θ ≤ probs j comp))
        if minSize ≤ dealIndices.length then
          if dealIndices.length ≤ maxSize then [dealIndices]
          else chunks maxSize (sortDesc (fun j => probs j comp) dealIndices)
        else []) comp).countP (fun c => decide (i ∈ c)) := by
  simp only []
  set L := (List.range n).filter (fun j => decide (θ ≤ probs j comp)) with hL
  have hiL : i ∈ L := by
    rw [hL, List.mem_filter]
    exact ⟨List.mem_range.mpr hin, by simpa using hp⟩
  rw [if_pos hs]
  by_cases hlen : L.length ≤ maxSize
  · rw [if_pos hlen]
    have : (decide (i ∈ L)) = true := by simpa using hiL
    simp [List.countP_cons, this]
  · rw [if_neg hlen]
    have hmem : i ∈ (chunks maxSize (sortDesc (fun j => probs j comp) L)).flatten := by
      rw [flatten_chunks hmax, mem_sortDesc]
      exact hiL
    rw [List.mem_flatten] at hmem
    obtain ⟨c, hc, hic⟩ := hmem
    exact List.countP_pos_iff.mpr ⟨c, hc, decide_eq_true hic⟩

end Clustering

namespace Claims

open Clustering

/-- Membership-probability matrix refuting the soft-mode lower bound of
C1: two components, every one of four items at probability 6/10 in the
first and 4/10 in the second, both at or above the 3/10 threshold. -/
def tailChunkProbs : ℕ → ℕ → ℚ := fun _ c => if c = 0 then mkRat 6 10 else mkRat 4 10

/-- C1 (counterexample).  With min_cluster_size = 2 <= 3 =
max_deals_per_cluster and 4 >= 2 input items, the soft-mode partitioner on
tailChunkProbs returns the tail chunk [3] of length 1 < min_cluster_size:
splitting an oversized soft cluster keeps undersized tail chunks, so not
every returned cluster has size at least min_cluster_size. -/
theorem partition_bounds_cex :
    2 ≤ 3 ∧ 2 ≤ 4
    ∧ [3] ∈ cluster_deals_with_soft_assignments tailChunkProbs 4 3 2 (mkRat 3 10)
    ∧ ¬ 2 ≤ ([3] : List ℕ).length := by
  decide

/-- C1 (amended).  Hard mode (cluster_deals_semantically) keeps both
bounds: every returned cluster has size in [min_cluster_size,
max_deals_per_cluster], for every label assignment the fitted model may
produce.  Soft mode (cluster_deals_with_soft_assignments) guarantees only
the upper bound: clusters are split to at most max_deals_per_cluster, but
the undersized tail chunks of a split cluster are not re-filtered against
min_cluster_size (only whole components below min_cluster_size are
dropped). -/
theorem partition_bounds_amended (labels : ℕ → ℕ) (probs : ℕ → ℕ → ℚ)
    (n maxSize minSize : ℕ) (threshold : ℚ) :
    (∀ c ∈ cluster_deals_semantically labels n maxSize minSize,
        minSize ≤ c.length ∧ c.length ≤ maxSize)
    ∧ (∀ c ∈ cluster_deals_with_soft_assignments probs n maxSize minSize threshold,
        c.length ≤ maxSize) := by
  constructor
  · intro c hc
    unfold cluster_deals_semantically at hc
    split at hc
    · simp at hc
    · rw [List.mem_filter] at hc
      obtain ⟨hmem, hfil⟩ := hc
      refine ⟨by simpa using hfil, ?_⟩
      rw [List.mem_flatten] at hmem
      obtain ⟨blk, hblk, hcblk⟩ := hmem
      rw [List.mem_map] at hblk
      obtain ⟨g, _, rfl⟩ := hblk
      by_cases hlen : g.length ≤ maxSize
      · rw [if_pos hlen] at hcblk
        simp only [List.mem_singleton] at hcblk
        subst hcblk
        exact hlen
      · rw [if_neg hlen] at hcblk
        exact length_le_of_mem_chunks hcblk
  · intro c hc
    unfold cluster_deals_with_soft_assignments at hc
    split at hc
    · simp at hc
    · rw [List.mem_flatten] at hc
      obtain ⟨blk, hblk, hcblk⟩ := hc
      rw [List.mem_map] at hblk
      obtain ⟨comp, _, rfl⟩ := hblk
      simp only [] at hcblk
      split at hcblk
      · split at hcblk
        · simp only [List.mem_singleton] at hcblk
          subst hcblk
          omega
        · exact length_le_of_mem_chunks hcblk
      · simp at hcblk

/-- Witness for partition_bounds_amended: a concrete hard-mode run on 7
items labelled by parity (clusters of 3, 3 and the dropped singleton) and
a concrete soft-mode run, each evaluated at one returned cluster. -/
theorem partition_bounds_amended_witness :
    (2 ≤ ([0, 2, 4] : List ℕ).length ∧ ([0, 2, 4] : List ℕ).length ≤ 3)
    ∧ ([0, 1, 2] : List ℕ).length ≤ 3 :=
  ⟨(partition_bounds_amended (fun i => i % 2) tailChunkProbs 7 3 2 (mkRat 3 10)).1
      [0, 2, 4] (by decide),
    (partition_bounds_amended (fun i => i % 2) tailChunkProbs 4 3 2 (mkRat 3 10)).2
      [0, 1, 2] (by decide)⟩

/-- Membership-probability matrix refuting C4: item 0 is at or above the
0.3 threshold in all three components (probabilities 0.35, 0.34, 0.31),
items 1-5 only in component 0 (0.9 against 0.05). -/
def soloOverlapProbs : ℕ → ℕ → ℚ := fun i c =>
  if i = 0 then (if c = 0 then mkRat 35 100 else if c = 1 then mkRat 34 100 else mkRat 31 100)
  else (if c = 0 then mkRat 9 10 else mkRat 5 100)

/-- C4 (counterexample).  With 6 items, max_deals_per_cluster = 30,
min_cluster_size = 2 and the default threshold 0.3, the partitioner fits
3 components; item 0 has membership probability at least 0.3 in all three,
yet appears in exactly one returned cluster: components 1 and 2 gather
only item 0, fall below min_cluster_size and are dropped entirely. -/
theorem soft_overlap_cex :
    computeNClusters 6 30 2 = 3
    ∧ mkRat 3 10 ≤ soloOverlapProbs 0 0
    ∧ mkRat 3 10 ≤ soloOverlapProbs 0 1
    ∧ mkRat 3 10 ≤ soloOverlapProbs 0 2
    ∧ (cluster_deals_with_soft_assignments soloOverlapProbs 6 30 2 (mkRat 3 10)).countP
        (fun c => decide (0 ∈ c)) = 1 := by
  decide

/-- C4 (amended).  In soft mode an item at or above the threshold in two
or more components appears in two or more returned clusters provided each
such component's thresholded index list itself reaches min_cluster_size
(components below it are dropped wholesale, taking their copy of the item
with them). -/
theorem soft_overlap_amended (probs : ℕ → ℕ → ℚ) (n maxSize minSize : ℕ) (θ : ℚ)
    (i c1 c2 : ℕ) (hmn : minSize ≤ n) (hmax : 0 < maxSize) (h12 : c1 < c2)
    (h2k : c2 < computeNClusters n maxSize minSize) (hin : i < n)
    (hp1 : θ ≤ probs i c1) (hp2 : θ ≤ probs i c2)
    (hs1 : minSize ≤ ((List.range n).filter (fun j => decide (θ ≤ probs j c1))).length)
    (hs2 : minSize ≤ ((List.range n).filter (fun j => decide (θ ≤ probs j c2))).length) :
    2 ≤ (cluster_deals_with_soft_assignments probs n maxSize minSize θ).countP
        (fun c => decide (i ∈ c)) := by
  unfold cluster_deals_with_soft_assignments
  rw [if_neg (by omega)]
  rw [List.countP_flatten, List.map_map]
  exact two_le_sum_map_range _ h12 h2k
    (soft_component_contributes probs n maxSize minSize θ i c1 hmax hin hp1 hs1)
    (soft_component_contributes probs n maxSize minSize θ i c2 hmax hin hp2 hs2)

/-- Membership-probability matrix for the C4 witness: every one of four
items at probability 1/2 in each of the two components. -/
def twoWayProbs : ℕ → ℕ → ℚ := fun _ c => if c ≤ 1 then mkRat 1 2 else 0

/-- Witness for soft_overlap_amended: on twoWayProbs with 4 items,
max 30, min 2, threshold 0.3, item 0 qualifies in components 0 and 1 and
indeed lands in both returned clusters. -/
theorem soft_overlap_amended_witness :
    2 ≤ (cluster_deals_with_soft_assignments twoWayProbs 4 30 2 (mkRat 3 10)).countP
        (fun c => decide (0 ∈ c)) :=
  soft_overlap_amended twoWayProbs 4 30 2 (mkRat 3 10) 0 0 1
    (by decide) (by decide) (by decide) (by decide) (by decide)
    (by decide) (by decide) (by decide) (by decide)

/-- C5 (counterexample).  For 12 items with max_size 8 and min_size 5 in
the default gmm mode with BIC auto-selection, the component count is 3,
not 2: the BIC candidate range runs from min_components = 3 up to the
computed cap 2, is empty, and the selection falls back to 3. -/
theorem component_count_cex :
    semanticComponentCount (fun _ => some 0) 12 8 5 Method.gmm none = 3
    ∧ ¬ semanticComponentCount (fun _ => some 0) 12 8 5 Method.gmm none = 2 := by
  decide

/-- C5 (amended).  For 12 items, max_size 8, min_size 5, the capped
n_clusters formula gives max(3, 12 / 8) = 3 capped by 12 / 5 = 2, so
kmeans mode fits exactly 2 clusters; but in the default gmm mode with
n_components unset, the BIC scan over the empty range 3..2 never runs and
returns its floor of 3 for every possible BIC oracle, so the mixture is
fit with 3 components. -/
theorem component_count_amended (bic : ℕ → Option ℚ) :
    computeNClusters 12 8 5 = 2
    ∧ semanticComponentCount bic 12 8 5 Method.kmeans none = 2
    ∧ semanticComponentCount bic 12 8 5 Method.gmm none = 3 :=
  ⟨rfl, rfl, rfl⟩

end Claims

namespace Exporter

/-- Repeated export of one record through export_deal with all sinks
healthy, as a resumed-free single run performs it. -/
def exportTimes (r : Record) (st : ExporterState) : ℕ → ExporterState
  | 0 => st
  | m + 1 => (export_deal noFail (exportTimes r st m) r).1

theorem appendJsonl_sheets (f : Bool) (st : ExporterState) (r : Record) :
    (appendJsonl f st r).sheets = st.sheets := by
  unfold appendJsonl
  split <;> rfl

theorem appendJsonl_worksheet (f : Bool) (st : ExporterState) (r : Record) :
    (appendJsonl f st r).worksheet = st.worksheet := by
  unfold appendJsonl
  split <;> rfl

theorem appendJsonl_jsonlLines (f : Bool) (st : ExporterState) (r : Record) :
    (appendJsonl f st r).jsonlLines
      = (if f = true then st.jsonlLines else st.jsonlLines ++ [r]) := by
  unfold appendJsonl
  split <;> simp_all

theorem appendTsv_sheets (f : Bool) (st : ExporterState) (r : Record) :
    (appendTsv f st r).sheets = st.sheets := by
  unfold appendTsv
  split
  · rfl
  · split
    · rfl
    · split
      · split <;> rfl
      · rfl

theorem appendTsv_worksheet (f : Bool) (st : ExporterState) (r : Record) :
    (appendTsv f st r).worksheet = st.worksheet := by
  unfold appendTsv
  split
  · rfl
  · split
    · rfl
    · split
      · split <;> rfl
      · rfl

theorem appendTsv_jsonlLines (f : Bool) (st : ExporterState) (r : Record) :
    (appendTsv f st r).jsonlLines = st.jsonlLines := by
  unfold appendTsv
  split
  · rfl
  · split
    · rfl
    · split
      · split <;> rfl
      · rfl

theorem withRawDealData_ne_nil (r : Record) : withRawDealData r ≠ [] := by
  unfold withRawDealData
  split
  · rename_i hc
    cases r with
    | nil => simp at hc
    | cons a t => simp
  · simp

theorem appendTsv_first (st : ExporterState) (r : Record) (h : st.tsvHeaderWritten = false) :
    appendTsv false st r
      = { st with
          tsvHeaderWritten := true
          tsvColumns := some ((withRawDealData r).map Prod.fst)
          tsvRows := st.tsvRows ++ [(withRawDealData r).map (fun kv => some kv.2)] } := by
  unfold appendTsv
  simp [h]

theorem appendTsv_steady (st : ExporterState) (r : Record) (cols : List String)
    (h1 : st.tsvHeaderWritten = true) (h2 : st.tsvColumns = some cols) (hc : cols ≠ []) :
    appendTsv false st r
      = { st with
          tsvRows := st.tsvRows ++ [cols.map (fun c => (withRawDealData r).lookup c)] } := by
  cases cols with
  | nil => exact absurd rfl hc
  | cons c cs =>
    unfold appendTsv
    simp [h1, h2]

/-- The tsv fold over a run whose header and non-empty column memo are
already fixed: every further record is reindexed to the memo and nothing
else changes. -/
theorem applyTsv_steady (cols : List String) (hcols : cols ≠ []) :
    ∀ (rs : List Record) (st : ExporterState),
      st.tsvHeaderWritten = true → st.tsvColumns = some cols →
      rs.foldl (appendTsv false) st
        = { st with
            tsvRows := st.tsvRows
              ++ rs.map (fun r => cols.map (fun c => (withRawDealData r).lookup c)) } := by
  intro rs
  induction rs with
  | nil =>
    intro st h1 h2
    simp
  | cons r rs ih =>
    intro st h1 h2
    rw [List.foldl_cons, appendTsv_steady st r cols h1 h2 hcols]
    rw [ih { st with
        tsvRows := st.tsvRows ++ [cols.map (fun c => (withRawDealData r).lookup c)] } h1 h2]
    simp [List.append_assoc]

end Exporter

namespace Claims

open Exporter

/-- C6.  Regardless of which sinks fail, one export_deal call attempts
the append-log and tsv writes (they are in the attempted-sink list for
every failure pattern), and the append-log outcome is exactly the
unconditional appended line unless the append-log write itself failed: a
remote-sheet or tsv failure neither prevents nor removes the log line.
The call is a total function of the failure pattern - no pattern raises. -/
theorem export_sink_isolation (f : SinkFailures) (st : ExporterState) (r : Record) :
    Sink.jsonl ∈ (export_deal f st r).2
    ∧ Sink.tsv ∈ (export_deal f st r).2
    ∧ (export_deal f st r).1.jsonlLines
        = (if f.jsonl = true then st.jsonlLines else st.jsonlLines ++ [r]) := by
  unfold export_deal
  refine ⟨?_, ?_, ?_⟩ <;>
    · simp only [appendTsv_jsonlLines, appendJsonl_jsonlLines]
      split <;> simp [appendTsv_jsonlLines, appendJsonl_jsonlLines]

/-- C7.  Tabular schema stability: on a fresh run the first record fixes
the column set (its flattened fields, raw_deal_data reinstated) and is
written as-is; every later record is reindexed to that set, absent fields
becoming empty lookups and extra fields dropped.  On a resumed run the
columns read back from the existing artifact play the same role for every
record.  In particular a 5-field first record followed by a 7-field
second yields rows over exactly the first record's 5 columns. -/
theorem tsv_schema_stability :
    (∀ (w : Bool) (r1 : Record) (rs : List Record),
        ((r1 :: rs).foldl (appendTsv false) (freshExporter w)).tsvColumns
            = some ((withRawDealData r1).map Prod.fst)
        ∧ ((r1 :: rs).foldl (appendTsv false) (freshExporter w)).tsvRows
            = (withRawDealData r1).map (fun kv => some kv.2)
              :: rs.map (fun r =>
                  ((withRawDealData r1).map Prod.fst).map
                    (fun c => (withRawDealData r).lookup c)))
    ∧ (∀ (c0 : String) (cs : List String) (jl : List Record)
          (rows0 : List (List (Option String))) (w : Bool) (sh : SheetsState)
          (rs : List Record),
        (rs.foldl (appendTsv false) ⟨jl, true, some (c0 :: cs), rows0, w, sh⟩).tsvColumns
            = some (c0 :: cs)
        ∧ (rs.foldl (appendTsv false) ⟨jl, true, some (c0 :: cs), rows0, w, sh⟩).tsvRows
            = rows0 ++ rs.map (fun r => (c0 :: cs).map (fun c => (withRawDealData r).lookup c))) := by
  constructor
  · intro w r1 rs
    have hne : (withRawDealData r1).map Prod.fst ≠ [] := by
      intro h
      exact withRawDealData_ne_nil r1 (List.map_eq_nil_iff.mp h)
    rw [List.foldl_cons, appendTsv_first _ _ rfl,
      applyTsv_steady ((withRawDealData r1).map Prod.fst) hne rs _ rfl rfl]
    exact ⟨rfl, rfl⟩
  · intro c0 cs jl rows0 w sh rs
    rw [applyTsv_steady (c0 :: cs) (List.cons_ne_nil c0 cs) rs _ rfl rfl]
    exact ⟨rfl, rfl⟩

/-- Exporter state after two export_deal calls for the same fresh key d1
on a newly created worksheet (empty index, cursor at row 2). -/
def dupExported : ExporterState :=
  (export_deal noFail (export_deal noFail (freshExporter true) [("deal_id", "d1")]).1
    [("deal_id", "d1")]).1

/-- C2 (counterexample).  Two export_deal calls for the same Unit Key d1
in one run over a fresh worksheet leave d1 occupying two spreadsheet rows
(rows 2 and 3): the append branch never extends the deal_id index, so the
repeat export appends a second row instead of overwriting. -/
theorem sheet_row_unique_cex :
    rowsWithKey dupExported.sheets "d1" = 2
    ∧ ¬ rowsWithKey dupExported.sheets "d1" ≤ 1 := by
  decide

end Claims

namespace Exporter

theorem export_deal_worksheet (f : SinkFailures) (st : ExporterState) (r : Record) :
    (export_deal f st r).1.worksheet = st.worksheet := by
  unfold export_deal
  simp only [appendTsv_worksheet, appendJsonl_worksheet]
  split <;> simp [appendTsv_worksheet, appendJsonl_worksheet]

theorem export_deal_sheets_of_worksheet (st : ExporterState) (rec : Record)
    (hw : st.worksheet = true) :
    (export_deal noFail st rec).1.sheets
      = appendToSheets false st.sheets (rec.lookup "deal_id") := by
  have h2w : (appendTsv false (appendJsonl false st rec) rec).worksheet = true := by
    rw [appendTsv_worksheet, appendJsonl_worksheet]
    exact hw
  unfold export_deal
  simp [h2w, appendTsv_sheets, appendJsonl_sheets, noFail]

theorem appendToSheets_indexed (sh : SheetsState) (d : String) (r : ℕ)
    (hd : ¬ d = "") (hlk : sh.dealIdToRow.lookup d = some r) :
    appendToSheets false sh (some d) = { sh with rows := setRow sh.rows r (some d) } := by
  have hbeq : (d == "") = false := beq_eq_false_iff_ne.mpr hd
  have hne : sh.dealIdToRow.isEmpty = false := by
    cases h : sh.dealIdToRow with
    | nil => rw [h] at hlk; simp [List.lookup] at hlk
    | cons a t => rfl
  unfold appendToSheets
  simp [hbeq, hne, hlk]

theorem appendToSheets_fresh (sh : SheetsState) (d : String)
    (hlk : sh.dealIdToRow.lookup d = none) :
    appendToSheets false sh (some d)
      = { sh with rows := setRow sh.rows sh.nextRow (some d), nextRow := sh.nextRow + 1 } := by
  have htarget :
      (if !(d == "") && !sh.dealIdToRow.isEmpty then sh.dealIdToRow.lookup d else none)
        = none := by
    split
    · exact hlk
    · rfl
  unfold appendToSheets
  simp only [Bool.false_eq_true, if_false, htarget]

theorem exportTimes_fresh (d : String) (m : ℕ) :
    (exportTimes [("deal_id", d)] (freshExporter true) m).sheets
        = ⟨[], 2 + m, (List.range' 2 m).map (fun j => (j, some d))⟩
    ∧ (exportTimes [("deal_id", d)] (freshExporter true) m).worksheet = true := by
  induction m with
  | zero => exact ⟨rfl, rfl⟩
  | succ m ih =>
    obtain ⟨hs, hw⟩ := ih
    have hlk : ([("deal_id", d)] : Record).lookup "deal_id" = some d := by
      simp [List.lookup]
    constructor
    · show (export_deal noFail (exportTimes [("deal_id", d)] (freshExporter true) m)
        [("deal_id", d)]).1.sheets = _
      rw [export_deal_sheets_of_worksheet _ _ hw, hlk, hs]
      rw [appendToSheets_fresh _ _ (by simp [List.lookup])]
      have hany :
          ((List.range' 2 m).map (fun j => (j, some d))).any
              (fun p => p.1 == 2 + m) = false := by
        rw [List.any_eq_false]
        intro x hx
        obtain ⟨j, hj, rfl⟩ := List.mem_map.mp hx
        have := (List.mem_range'_1.mp hj).2
        simp only [beq_iff_eq]
        omega
      unfold setRow
      rw [hany]
      simp only [Bool.false_eq_true, if_false]
      rw [List.range'_1_concat, List.map_append]
      rfl
    · show (export_deal noFail _ _).1.worksheet = true
      rw [export_deal_worksheet]
      exact hw

end Exporter

namespace Claims

/-- C2 (amended).  Within one run: exporting a key present in the
initialization-built index overwrites that exact indexed row in place,
leaving the cursor and the index unchanged; exporting a key absent from
the index appends at the next free row and advances the cursor but does
NOT extend the index, so repeated exports of a key that was not indexed
at initialization append one fresh row each - after m exports of the same
fresh key on a new worksheet the key occupies m rows, not one. -/
theorem sheet_reconciliation_amended :
    (∀ (st : Exporter.ExporterState) (rec : Exporter.Record) (d : String) (r : ℕ),
        st.worksheet = true → rec.lookup "deal_id" = some d → ¬ d = "" →
        st.sheets.dealIdToRow.lookup d = some r →
          (Exporter.export_deal Exporter.noFail st rec).1.sheets
            = { st.sheets with rows := Exporter.setRow st.sheets.rows r (some d) })
    ∧ (∀ (st : Exporter.ExporterState) (rec : Exporter.Record) (d : String),
        st.worksheet = true → rec.lookup "deal_id" = some d →
        st.sheets.dealIdToRow.lookup d = none →
          (Exporter.export_deal Exporter.noFail st rec).1.sheets
            = { st.sheets with
                rows := Exporter.setRow st.sheets.rows st.sheets.nextRow (some d)
                nextRow := st.sheets.nextRow + 1 })
    ∧ (∀ (m : ℕ) (d : String), ¬ d = "" →
        Exporter.rowsWithKey
          (Exporter.exportTimes [("deal_id", d)] (Exporter.freshExporter true) m).sheets d
            = m) := by
  refine ⟨?_, ?_, ?_⟩
  · intro st rec d r hw hrec hd hlk
    rw [Exporter.export_deal_sheets_of_worksheet _ _ hw, hrec,
      Exporter.appendToSheets_indexed _ _ _ hd hlk]
  · intro st rec d hw hrec hlk
    rw [Exporter.export_deal_sheets_of_worksheet _ _ hw, hrec,
      Exporter.appendToSheets_fresh _ _ hlk]
  · intro m d _hd
    unfold Exporter.rowsWithKey
    rw [(Exporter.exportTimes_fresh d m).1]
    have hall :
        ∀ p ∈ (List.range' 2 m).map (fun j => (j, some d)),
          ((p : ℕ × Option String).2 == some d) = true := by
      intro p hp
      obtain ⟨j, hj, rfl⟩ := List.mem_map.mp hp
      simp
    rw [List.filter_eq_self.mpr hall, List.length_map, List.length_range']

/-- Witness for sheet_reconciliation_amended: an indexed key a is
overwritten at its indexed row 2, a fresh key b on the same state is
appended at the cursor, and two exports of fresh key d1 on a new
worksheet occupy two rows. -/
theorem sheet_reconciliation_amended_witness :
    ((Exporter.export_deal Exporter.noFail
        ⟨[], false, none, [], true, ⟨[("a", 2)], 3, [(2, some "a")]⟩⟩
        [("deal_id", "a")]).1.sheets
      = { (⟨[("a", 2)], 3, [(2, some "a")]⟩ : Exporter.SheetsState) with
          rows := Exporter.setRow [(2, some "a")] 2 (some "a") })
    ∧ ((Exporter.export_deal Exporter.noFail
        ⟨[], false, none, [], true, ⟨[("a", 2)], 3, [(2, some "a")]⟩⟩
        [("deal_id", "b")]).1.sheets
      = { (⟨[("a", 2)], 3, [(2, some "a")]⟩ : Exporter.SheetsState) with
          rows := Exporter.setRow [(2, some "a")] 3 (some "b")
          nextRow := 4 })
    ∧ Exporter.rowsWithKey
        (Exporter.exportTimes [("deal_id", "d1")] (Exporter.freshExporter true) 2).sheets "d1"
          = 2 :=
  ⟨sheet_reconciliation_amended.1
      ⟨[], false, none, [], true, ⟨[("a", 2)], 3, [(2, some "a")]⟩⟩
      [("deal_id", "a")] "a" 2 rfl (by simp [List.lookup]) (by decide) (by simp [List.lookup]),
    sheet_reconciliation_amended.2.1
      ⟨[], false, none, [], true, ⟨[("a", 2)], 3, [(2, some "a")]⟩⟩
      [("deal_id", "b")] "b" rfl (by simp [List.lookup]) (by simp [List.lookup]),
    sheet_reconciliation_amended.2.2 2 "d1" (by decide)⟩

end Claims

namespace Checkpoint

theorem keepStep_eq (processed : List String) (acc : List PyDeal) (d : PyDeal) :
    keepStep processed acc d = acc ++ (if keptPerClaim processed d then [d] else []) := by
  unfold keepStep keptPerClaim
  cases hid : extractDealId d with
  | none => simp [truthyId]
  | some k =>
    by_cases hk : k = ""
    · subst hk
      simp [truthyId]
    · have hbeq : (k == "") = false := beq_eq_false_iff_ne.mpr hk
      by_cases hc : k ∈ processed <;> simp [truthyId, hbeq, hk, hc]

theorem foldl_keepStep_eq_filter (processed : List String) :
    ∀ (deals : List PyDeal) (acc : List PyDeal),
      deals.foldl (keepStep processed) acc = acc ++ deals.filter (keptPerClaim processed) := by
  intro deals
  induction deals with
  | nil => intro acc; simp
  | cons d ds ih =>
    intro acc
    rw [List.foldl_cons, keepStep_eq, ih, List.filter_cons]
    by_cases h : keptPerClaim processed d = true <;> simp [h]

theorem get_unprocessed_deals_eq_filter (processed : List String) (deals : List PyDeal) :
    get_unprocessed_deals processed deals = deals.filter (keptPerClaim processed) := by
  unfold get_unprocessed_deals
  rw [foldl_keepStep_eq_filter]
  rfl

end Checkpoint

namespace Batch

theorem mem_creator_block {npkgs : ℕ → ℕ} {hasCp hasExp : Bool} {c0 : ℕ} {e : CreateEv}
    (h : e ∈ CreateEv.process c0 ::
        ((if hasExp then List.replicate (npkgs c0) (CreateEv.exported c0) else [])
        ++ (if hasCp then
              CreateEv.mark c0 :: (if c0 % 5 == 0 then [CreateEv.save] else [])
            else []))) :
    clusterOf e = some c0 ∨ clusterOf e = none := by
  simp only [List.mem_cons, List.mem_append] at h
  rcases h with rfl | h | h
  · left; rfl
  · split at h
    · have := List.eq_of_mem_replicate h
      subst this
      left; rfl
    · simp at h
  · split at h
    · rcases List.mem_cons.mp h with rfl | h2
      · left; rfl
      · split at h2
        · rw [List.mem_singleton] at h2
          subst h2
          right; rfl
        · simp at h2
    · simp at h

theorem creatorLoop_filter_not_mem (npkgs : ℕ → ℕ) (hasCp hasExp : Bool) (c : ℕ) :
    ∀ cs : List ℕ, c ∉ cs →
      (creatorLoop npkgs hasCp hasExp cs).filter (fun e => clusterOf e == some c) = [] := by
  intro cs
  induction cs with
  | nil => intro _; rfl
  | cons c0 cs ih =>
    intro h
    have hc0 : c0 ≠ c := fun he => h (he ▸ List.mem_cons_self c0 cs)
    simp only [creatorLoop, List.filter_append]
    rw [ih (fun hm => h (List.mem_cons_of_mem _ hm)), List.append_nil]
    apply List.filter_eq_nil_iff.mpr
    intro e he
    rcases mem_creator_block he with h1 | h1 <;> simp [h1, hc0]

theorem creator_block_filter (npkgs : ℕ → ℕ) (hasCp hasExp : Bool) (c : ℕ) :
    (CreateEv.process c ::
        ((if hasExp then List.replicate (npkgs c) (CreateEv.exported c) else [])
        ++ (if hasCp then CreateEv.mark c :: (if c % 5 == 0 then [CreateEv.save] else [])
            else []))).filter (fun e => clusterOf e == some c)
      = CreateEv.process c
        :: ((if hasExp then List.replicate (npkgs c) (CreateEv.exported c) else [])
            ++ (if hasCp then [CreateEv.mark c] else [])) := by
  cases hasExp <;> cases hasCp <;>
    cases h5 : (c % 5 == 0) <;>
      simp [clusterOf, List.filter_append, List.filter_replicate, List.filter_cons, h5]

theorem creatorLoop_filter_of_mem (npkgs : ℕ → ℕ) (hasCp hasExp : Bool) (c : ℕ) :
    ∀ cs : List ℕ, cs.Nodup → c ∈ cs →
      (creatorLoop npkgs hasCp hasExp cs).filter (fun e => clusterOf e == some c)
        = CreateEv.process c
          :: ((if hasExp then List.replicate (npkgs c) (CreateEv.exported c) else [])
              ++ (if hasCp then [CreateEv.mark c] else [])) := by
  intro cs
  induction cs with
  | nil => intro _ h; simp at h
  | cons c0 cs ih =>
    intro hnd hc
    obtain ⟨hna, hnd2⟩ := List.nodup_cons.mp hnd
    simp only [creatorLoop, List.filter_append]
    rcases List.mem_cons.mp hc with rfl | hmem
    · rw [creatorLoop_filter_not_mem npkgs hasCp hasExp c cs hna, creator_block_filter]
      simp
    · have hc0 : c0 ≠ c := fun he => hna (he ▸ hmem)
      have hblock : (CreateEv.process c0 ::
          ((if hasExp then List.replicate (npkgs c0) (CreateEv.exported c0) else [])
          ++ (if hasCp then
                CreateEv.mark c0 :: (if c0 % 5 == 0 then [CreateEv.save] else [])
              else []))).filter (fun e => clusterOf e == some c) = [] := by
        apply List.filter_eq_nil_iff.mpr
        intro e he
        rcases mem_creator_block he with h1 | h1 <;> simp [h1, hc0]
      rw [hblock, ih hnd2 hmem, List.nil_append]

end Batch

namespace Claims

open Checkpoint Batch

/-- Event trace of an incremental single-deal enrich_batch run with a
fresh checkpoint and an exporter, the transform succeeding. -/
def enrichOrderTrace : List EnrichEv :=
  enrich_batch_events (fun _ => true) true true (some []) true
    [PyDeal.obj [("deal_id", "d1")]]

/-- Shape of the C3 claim on one trace: every checkpoint mark of a key
comes strictly after every exporter hand-off of that key. -/
def exportsPrecedeMarks (tr : List EnrichEv) : Prop :=
  ∀ (k : String) (i j : ℕ),
    tr[i]? = some (EnrichEv.mark k) → tr[j]? = some (EnrichEv.exported k) → j < i

/-- C3 (counterexample).  In the stage-1 enrichment loop the checkpoint
mark of a successfully processed deal precedes the hand-off of its record
to the exporter: for one successful deal d1 the trace is process, mark,
export, save - the mark at position 1 comes before the export at position
2, refuting the claimed PROCESS-EXPORT-MARK order for every stage. -/
theorem mark_before_export_cex :
    enrichOrderTrace
      = [EnrichEv.process "d1", EnrichEv.mark "d1", EnrichEv.exported "d1", EnrichEv.save]
    ∧ ¬ exportsPrecedeMarks enrichOrderTrace := by
  constructor
  · decide
  · intro h
    have h12 := h "d1" 1 2 (by decide) (by decide)
    omega

/-- C3 (amended).  The stage-2 package-creation loop does follow
PROCESS-EXPORT-MARK: restricted to any one unprocessed cluster index, the
whole-run trace is exactly the proposal call, then that cluster's package
exports, then its checkpoint mark.  The stage-1 enrichment loop instead
runs PROCESS-MARK-EXPORT: each successful deal is marked (and the
checkpoint possibly saved) before its record is handed to the exporter. -/
theorem process_export_mark_order_amended :
    (∀ (npkgs : ℕ → ℕ) (processed : List ℕ) (hasExp : Bool) (n c : ℕ),
        c ∈ get_unprocessed_clusters processed n →
          (create_packages_events npkgs (some processed) hasExp n).filter
              (fun e => clusterOf e == some c)
            = CreateEv.process c
              :: ((if hasExp then List.replicate (npkgs c) (CreateEv.exported c) else [])
                  ++ [CreateEv.mark c]))
    ∧ (∀ (succ : PyDeal → Bool) (hasExp cont : Bool) (idx : ℕ) (d : PyDeal)
          (ds : List PyDeal), succ d = true →
        enrichLoop succ true hasExp cont idx (d :: ds)
          = EnrichEv.process ((extractDealId d).getD "")
            :: EnrichEv.mark ((extractDealId d).getD "")
            :: ((if idx % 10 == 0 then [EnrichEv.save] else [])
                ++ (if hasExp then [EnrichEv.exported ((extractDealId d).getD "")] else [])
                ++ enrichLoop succ true hasExp cont (idx + 1) ds)) := by
  constructor
  · intro npkgs processed hasExp n c hc
    unfold create_packages_events
    have hnd : (get_unprocessed_clusters processed n).Nodup :=
      (List.nodup_range' 1 n).filter _
    simp only [Option.isSome_some, if_true, List.filter_append]
    rw [creatorLoop_filter_of_mem npkgs true hasExp c _ hnd hc]
    simp [clusterOf]
  · intro succ hasExp cont idx d ds h
    simp [enrichLoop, h, List.append_assoc]

/-- Witness for process_export_mark_order_amended: a one-cluster stage-2
run whose LLM proposes one package, and a one-deal stage-1 run, both
instantiated concretely. -/
theorem process_export_mark_order_amended_witness :
    ((create_packages_events (fun _ => 1) (some []) true 1).filter
        (fun e => clusterOf e == some 1)
      = CreateEv.process 1
        :: ((if true then List.replicate ((fun _ => 1) 1) (CreateEv.exported 1) else [])
            ++ [CreateEv.mark 1]))
    ∧ enrichLoop (fun _ => true) true true true 1 [PyDeal.obj [("deal_id", "d1")]]
      = EnrichEv.process ((extractDealId (PyDeal.obj [("deal_id", "d1")])).getD "")
        :: EnrichEv.mark ((extractDealId (PyDeal.obj [("deal_id", "d1")])).getD "")
        :: ((if 1 % 10 == 0 then [EnrichEv.save] else [])
            ++ (if true then
                  [EnrichEv.exported ((extractDealId (PyDeal.obj [("deal_id", "d1")])).getD "")]
                else [])
            ++ enrichLoop (fun _ => true) true true true (1 + 1) []) :=
  ⟨process_export_mark_order_amended.1 (fun _ => 1) [] true 1 1 (by decide),
    process_export_mark_order_amended.2 (fun _ => true) true true 1
      (PyDeal.obj [("deal_id", "d1")]) [] rfl⟩

/-- C8.  When every input deal carries a non-empty key already in the
checkpoint's processed set, an incremental enrich_batch run filters all of
them out and its whole trace is the single final checkpoint save: the
transform is never invoked and nothing is exported. -/
theorem idempotent_resume (succ : PyDeal → Bool) (cont hasExporter : Bool)
    (processed : List String) (deals : List PyDeal)
    (h : ∀ d ∈ deals, ∃ k, extractDealId d = some k ∧ ¬ k = ""
        ∧ processed.contains k = true) :
    enrich_batch_events succ cont true (some processed) hasExporter deals
      = [EnrichEv.save] := by
  have hemp : get_unprocessed_deals processed deals = [] := by
    rw [get_unprocessed_deals_eq_filter, List.filter_eq_nil_iff]
    intro d hd
    obtain ⟨k, hk, hne, hcont⟩ := h d hd
    unfold keptPerClaim
    rw [hk]
    simp [hne]
    simpa using hcont
  unfold enrich_batch_events
  simp [hemp, enrichLoop]

/-- Witness for idempotent_resume: one deal keyed a with the checkpoint
already holding a. -/
theorem idempotent_resume_witness :
    enrich_batch_events (fun _ => true) true true (some ["a"]) true
        [PyDeal.obj [("deal_id", "a")]]
      = [EnrichEv.save] :=
  idempotent_resume (fun _ => true) true true ["a"] [PyDeal.obj [("deal_id", "a")]]
    (by
      intro d hd
      rw [List.mem_singleton] at hd
      subst hd
      exact ⟨"a", by decide, by decide, by decide⟩)

/-- C9.  Loading a checkpoint store whose backing file exists but fails
to read or parse is the caught-exception path of a total function - it
cannot raise - and yields the empty state: the processed set is empty and
is_processed answers false for every key, in the string-keyed enrichment
store and the integer-keyed package-creation store alike. -/
theorem corrupt_checkpoint_empty :
    Checkpoint.load (Checkpoint.BackingFile.present (Except.error ()))
        = ({ processedKeys := [], sourceFile := none, lastUpdated := none } :
            Checkpoint.CheckpointState String)
    ∧ (∀ k : String,
        Checkpoint.is_processed
          (Checkpoint.load (Checkpoint.BackingFile.present (Except.error ()))) k = false)
    ∧ Checkpoint.load (Checkpoint.BackingFile.present (Except.error ()))
        = ({ processedKeys := [], sourceFile := none, lastUpdated := none } :
            Checkpoint.CheckpointState ℕ)
    ∧ (∀ i : ℕ,
        Checkpoint.is_processed
          (Checkpoint.load (Checkpoint.BackingFile.present (Except.error ()))) i = false) :=
  ⟨rfl, fun _ => rfl, rfl, fun _ => rfl⟩

/-- C10.  get_unprocessed_deals is exactly the in-order filter keeping
every unit from which no non-empty key can be extracted (independently of
the processed set) and keeping a unit with a non-empty key exactly when
that key is not in the processed set. -/
theorem unprocessed_filter_characterization (processed : List String)
    (deals : List PyDeal) :
    get_unprocessed_deals processed deals = deals.filter (keptPerClaim processed) :=
  get_unprocessed_deals_eq_filter processed deals

end Claims

end DealPipeline
